import Mathlib

/-!
Verification of the two benchmark programs of this repository:
`src/task.c` (MatrixMultiplyBenchmark, a 500×500 dense integer matrix
product) and `src/task2.c` (PrimeRangeCounter, a trial-division prime
count over the closed range [90000000000, 90000100000]).

The C code is shallowly embedded: loops become recursive functions or
folds, the `long long` arithmetic of `is_prime` is exact on the inputs
the program uses (overflow freedom is proved separately), matrices are
functions `Fin 500 → Fin 500 → Int`, the unseeded `rand()` stream is an
arbitrary function `Nat → Nat`, `clock()` is an arbitrary function
`Nat → Int`, and each `printf` call is recorded as a trace event.
-/

/-! ## Embedding of `src/task2.c` -/

/-- The trial-division loop of `is_prime`, from `src/task2.c` lines 8–10:
`for (long long i = 2; i * i <= n; i++) { if (n % i == 0) return 0; }`
followed by `return 1`.  The loop index is a natural number (it starts
at 2 and only increments); `n` is the `long long` argument. -/
def trialDiv (n : Int) (i : Nat) : Bool :=
  if h : (i : Int) * i ≤ n then
    if n % (i : Int) = 0 then false
    else trialDiv n (i + 1)
  else true
termination_by (n + 1 - i).toNat
decreasing_by
  have hii : (i : Int) ≤ (i : Int) * i := by
    rcases Nat.eq_zero_or_pos i with h0 | h1
    · subst h0; simp
    · nlinarith
  have hin : (i : Int) ≤ n := le_trans hii h
  omega

/-- Function `is_prime` from `src/task2.c` lines 6–12. -/
def is_prime (n : Int) : Bool :=
  if n < 2 then false
  else trialDiv n 2

/-- The list of loop indices `i` at which the trial-division loop of
`is_prime` evaluates its condition `i * i <= n`: the iteration trace of
the loop of `src/task2.c` lines 8–10 started at index `i`. -/
def trialIters (n : Int) (i : Nat) : List Nat :=
  if h : (i : Int) * i ≤ n then
    if n % (i : Int) = 0 then [i]
    else i :: trialIters n (i + 1)
  else [i]
termination_by (n + 1 - i).toNat
decreasing_by
  have hii : (i : Int) ≤ (i : Int) * i := by
    rcases Nat.eq_zero_or_pos i with h0 | h1
    · subst h0; simp
    · nlinarith
  have hin : (i : Int) ≤ n := le_trans hii h
  omega

/-- The lower bound of the counted range, `src/task2.c` line 15. -/
def start : Int := 90000000000

/-- The upper bound of the counted range (`end` in `src/task2.c` line 16;
renamed because `end` is reserved in Lean). -/
def end_ : Int := 90000100000

/-- The counting loop of `src/task2.c` lines 21–25: iterate `i` from a
current value up to `e` inclusive, incrementing the accumulator `c`
whenever `is_prime i` holds. -/
def countLoop (e : Int) (i : Int) (c : Nat) : Nat :=
  if i ≤ e then countLoop e (i + 1) (if is_prime i then c + 1 else c)
  else c
termination_by (e + 1 - i).toNat
decreasing_by omega

/-- The candidates visited by the counting loop of `src/task2.c`
lines 21–25, in visit order. -/
def candidates (i : Int) (e : Int) : List Int :=
  if i ≤ e then i :: candidates (i + 1) e
  else []
termination_by (e + 1 - i).toNat
decreasing_by omega

/-- The count computed by `main` of `src/task2.c`: the loop is entered
with `i = start` and `count = 0`. -/
def primeRangeCount : Nat := countLoop end_ start 0

/-! ## Embedding of `src/task.c` -/

/-- Matrices of the benchmark: 500 × 500 with `int` entries.  The
entries the program ever stores are small (at most 40500, proved
below), so `int` arithmetic is exact and entries are embedded as
unbounded integers. -/
def Mat : Type := Fin 500 → Fin 500 → Int

/-- The mutable state of `main` in `src/task.c`: the three matrices
`A`, `B`, `C`. -/
structure MatState where
  A : Mat
  B : Mat
  C : Mat

/-- Writing one entry of a matrix: `M[i][j] = v`. -/
def upd (M : Mat) (i j : Fin 500) (v : Int) : Mat :=
  fun i' j' => if i' = i ∧ j' = j then v else M i' j'

/-- One iteration of the innermost loop of `src/task.c` line 30:
`C[i][j] += A[i][k] * B[k][j]`. -/
def stepK (i j : Fin 500) (s : MatState) (k : Fin 500) : MatState :=
  { s with C := upd s.C i j (s.C i j + s.A i k * s.B k j) }

/-- The `k` loop of `src/task.c` lines 29–30. -/
def loopK (s : MatState) (i j : Fin 500) : MatState :=
  (List.finRange 500).foldl (stepK i j) s

/-- The `j` loop of `src/task.c` lines 28–30. -/
def loopJ (s : MatState) (i : Fin 500) : MatState :=
  (List.finRange 500).foldl (fun t j => loopK t i j) s

/-- The full timed triple loop of `src/task.c` lines 27–30. -/
def matMul (s : MatState) : MatState :=
  (List.finRange 500).foldl loopJ s

/-- The state after the fill loop of `src/task.c` lines 15–24, given
the stream `r` of values returned by successive `rand()` calls.  The
fill visits `(i, j)` in row-major order and calls `rand()` twice per
cell, first for `A[i][j]`, then for `B[i][j]`; `C[i][j]` is set to 0.
`rand()` returns a nonnegative `int`, so `% 10` is Euclidean. -/
def initState (r : Nat → Nat) : MatState where
  A := fun i j => ((r (2 * (500 * i.val + j.val)) % 10 : Nat) : Int)
  B := fun i j => ((r (2 * (500 * i.val + j.val) + 1) % 10 : Nat) : Int)
  C := fun _ _ => 0

/-! ### Allocation model for `src/task.c`

`main` calls `malloc` 1503 times: call 0 for `A`, call 1 for `B`,
call 2 for `C` (lines 11–13), then calls `3*i+3`, `3*i+4`, `3*i+5` for
the rows `A[i]`, `B[i]`, `C[i]` (lines 16–18).  No result is ever
checked.  `mallocOk c` tells whether call number `c` succeeds; a store
through a pointer whose allocation failed is a null dereference. -/

/-- The single undefined-behaviour fault the allocation/fill phase can
reach: a store through a null pointer. -/
inductive Fault where
  | nullDeref
deriving DecidableEq

/-- The body of the fill loop of `src/task.c` lines 15–24 for row `i`,
as the sequence of stores it performs: `A[i] = malloc(..)` stores
through `A` (null dereference if call 0 failed), likewise `B[i]` and
`C[i]` through `B` and `C`; then the inner `j` loop stores
`A[i][j]`, `B[i][j]`, `C[i][j]` through the row pointers obtained from
calls `3*i+3`, `3*i+4`, `3*i+5` (null dereference at `j = 0` if the
row allocation failed).  The code contains no check of any `malloc`
result. -/
def fillRow (mallocOk : Nat → Bool) (i : Nat) : Except Fault Unit :=
  if mallocOk 0 = false then .error .nullDeref
  else if mallocOk 1 = false then .error .nullDeref
  else if mallocOk 2 = false then .error .nullDeref
  else if mallocOk (3 * i + 3) = false then .error .nullDeref
  else if mallocOk (3 * i + 4) = false then .error .nullDeref
  else if mallocOk (3 * i + 5) = false then .error .nullDeref
  else .ok ()

/-- The fill loop of `src/task.c` lines 15–24 run for rows
`i, i+1, …, i+m-1`. -/
def fillRowsAux (mallocOk : Nat → Bool) (i : Nat) : Nat → Except Fault Unit
  | 0 => .ok ()
  | m + 1 =>
      match fillRow mallocOk i with
      | .error f => .error f
      | .ok _ => fillRowsAux mallocOk (i + 1) m

/-- The whole allocation/fill phase of `src/task.c` lines 11–24 under
the allocation oracle `mallocOk`. -/
def fillPhase (mallocOk : Nat → Bool) : Except Fault Unit :=
  fillRowsAux mallocOk 0 500

/-! ### Output model -/

/-- An argument passed to `printf`: an `int` (`%d`) or a `double`
(`%f`), the latter embedded as a rational. -/
inductive PArg where
  | pint (n : Int)
  | pfloat (x : ℚ)
deriving DecidableEq

/-- One `printf` call: the format string and its arguments. -/
structure PrintfEvent where
  fmt : String
  args : List PArg
deriving DecidableEq

/-- Value of `CLOCKS_PER_SEC` on the POSIX host, used by both programs to turn
`clock()` differences into seconds. -/
def CLOCKS_PER_SEC : Int := 1000000

/-- A run of `main` of `src/task.c` on rand stream `r`, with `clock()`
returning `clock 0` at line 26 (`start`) and `clock 1` at line 31
(`end`): fills the matrices, runs the timed triple loop, computes
`elapsed = (end - start) / CLOCKS_PER_SEC`, and performs the single
`printf` of line 34.  Result: final state and output trace. -/
def main1Run (r : Nat → Nat) (clock : Nat → Int) : MatState × List PrintfEvent :=
  let s := matMul (initState r)
  let elapsed : ℚ := ((clock 1 - clock 0 : Int) : ℚ) / ((CLOCKS_PER_SEC : Int) : ℚ)
  (s, [⟨"Elapsed time: %.4f\n", [PArg.pfloat elapsed]⟩])

/-- A run of `main` of `src/task2.c`, with `clock()` returning
`clock 0` at line 19 (`begin`) and `clock 1` at line 27 (`finish`):
counts the primes in `[start, end_]`, computes
`elapsed = (finish - begin) / CLOCKS_PER_SEC`, and performs the single
`printf` of line 30.  Result: the count and the output trace. -/
def main2Run (clock : Nat → Int) : Nat × List PrintfEvent :=
  let count := countLoop end_ start 0
  let elapsed : ℚ := ((clock 1 - clock 0 : Int) : ℚ) / ((CLOCKS_PER_SEC : Int) : ℚ)
  (count, [⟨"Found %d primes in %.3f seconds\n", [PArg.pint (count : Int), PArg.pfloat elapsed]⟩])

/-! ## Correctness of the primality test -/

/-- The trial-division loop started at index `i` returns `true` iff no
`j ≥ i` with `j * j ≤ n` divides `n`. -/
theorem trialDiv_eq_true_iff (n : Int) (i : Nat) :
    trialDiv n i = true ↔ ∀ j : Nat, i ≤ j → (j : Int) * j ≤ n → n % (j : Int) ≠ 0 := by
  induction i using trialDiv.induct n with
  | case1 x hle hmod =>
      rw [trialDiv]
      simp only [dif_pos hle, if_pos hmod]
      constructor
      · intro h; exact absurd h (by simp)
      · intro h
        exact absurd (h x le_rfl hle) (by simp [hmod])
  | case2 x hle hmod ih =>
      rw [trialDiv]
      simp only [dif_pos hle, if_neg hmod]
      rw [ih]
      constructor
      · intro h j hj hjj
        rcases Nat.eq_or_lt_of_le hj with rfl | hlt
        · exact hmod
        · exact h j hlt hjj
      · intro h j hj hjj
        exact h j (Nat.le_of_succ_le hj) hjj
  | case3 x hgt =>
      rw [trialDiv]
      simp only [dif_neg hgt]
      constructor
      · intro _ j hj hjj
        exfalso
        apply hgt
        calc (x : Int) * x ≤ (j : Int) * j := by
              have hxj : (x : Int) ≤ j := by exact_mod_cast hj
              have hx0 : (0 : Int) ≤ x := by positivity
              nlinarith
          _ ≤ n := hjj
      · intro _; trivial

/-- Predicate `is_prime n` holds iff `n` is (the embedding of) a prime natural
number. -/
theorem is_prime_iff (n : Int) : is_prime n = true ↔ 0 ≤ n ∧ Nat.Prime n.toNat := by
  unfold is_prime
  by_cases hlt : n < 2
  · simp only [if_pos hlt, Bool.false_eq_true, false_iff, not_and]
    intro h0 hp
    have := hp.two_le
    omega
  · simp only [if_neg hlt]
    push_neg at hlt
    have h0 : 0 ≤ n := by omega
    have hnm : n = (n.toNat : Int) := by omega
    rw [trialDiv_eq_true_iff]
    constructor
    · intro h
      refine ⟨h0, ?_⟩
      rw [Nat.prime_def_le_sqrt]
      refine ⟨by omega, ?_⟩
      intro k h2k hk hdvd
      apply h k h2k
      · rw [Nat.le_sqrt] at hk
        rw [hnm]
        exact_mod_cast hk
      · rw [hnm]
        exact Int.dvd_iff_emod_eq_zero.mp (Int.natCast_dvd_natCast.mpr hdvd)
    · rintro ⟨-, hp⟩
      rw [Nat.prime_def_le_sqrt] at hp
      intro j h2j hjj hmod
      apply hp.2 j h2j
      · rw [Nat.le_sqrt]
        rw [hnm] at hjj
        exact_mod_cast hjj
      · rw [hnm] at hmod
        rw [← Int.natCast_dvd_natCast]
        exact Int.dvd_of_emod_eq_zero hmod

/-- C2: `is_prime` returns not-prime for every `n < 2`; by
trial-dividing by each `i ≥ 2` with `i * i ≤ n` it returns prime
exactly when `n` is a prime number. -/
theorem is_prime_correct (n : Int) :
    (n < 2 → is_prime n = false) ∧ (is_prime n = true ↔ 0 ≤ n ∧ Nat.Prime n.toNat) := by
  constructor
  · intro h
    unfold is_prime
    rw [if_pos h]
  · exact is_prime_iff n

/-- Witness for `is_prime_correct` at `n = 7`. -/
theorem is_prime_correct_witness :
    ((7 : Int) < 2 → is_prime 7 = false) ∧
      (is_prime 7 = true ↔ 0 ≤ (7 : Int) ∧ Nat.Prime (7 : Int).toNat) :=
  is_prime_correct 7

/-- C5: the specified boundary values of the primality test. -/
theorem is_prime_boundary_values :
    is_prime 1 = false ∧ is_prime 2 = true ∧ is_prime 3 = true ∧ is_prime 4 = false := by
  refine ⟨?_, ?_, ?_, ?_⟩
  · rw [Bool.eq_false_iff]
    intro h
    have := ((is_prime_iff 1).mp h).2
    exact absurd this (by decide)
  · exact (is_prime_iff 2).mpr ⟨by norm_num, by decide⟩
  · exact (is_prime_iff 3).mpr ⟨by norm_num, by decide⟩
  · rw [Bool.eq_false_iff]
    intro h
    have := ((is_prime_iff 4).mp h).2
    exact absurd this (by decide)

/-! ## The counting loop of `src/task2.c` -/

/-- The counting loop adds to its accumulator the number of visited
candidates that pass `is_prime`. -/
theorem countLoop_eq_countP (e i : Int) (c : Nat) :
    countLoop e i c = c + (candidates i e).countP (fun n => is_prime n) := by
  induction i, c using countLoop.induct e with
  | case1 i c hle ih =>
      rw [countLoop, candidates]
      simp only [if_pos hle]
      simp only [dite_eq_ite] at ih
      rw [ih, List.countP_cons]
      cases hp : is_prime i
      · simp
      · simp
        omega
  | case2 i c hle =>
      rw [countLoop, candidates]
      simp only [if_neg hle, List.countP_nil]
      omega

/-- Membership in the candidate list is exactly membership in the
closed range. -/
theorem mem_candidates (i e : Int) (n : Int) :
    n ∈ candidates i e ↔ i ≤ n ∧ n ≤ e := by
  induction i, e using candidates.induct with
  | case1 i e hle ih =>
      rw [candidates]
      simp only [if_pos hle, List.mem_cons, ih]
      omega
  | case2 i e hle =>
      rw [candidates]
      simp only [if_neg hle, List.not_mem_nil, false_iff]
      omega

/-- The candidate list is strictly increasing: candidates are visited
in increasing order. -/
theorem candidates_chain (i e : Int) :
    List.Chain' (· < ·) (candidates i e) := by
  induction i, e using candidates.induct with
  | case1 i e hle ih =>
      rw [candidates]
      simp only [if_pos hle]
      rw [List.chain'_cons']
      refine ⟨?_, ih⟩
      intro y hy
      have hmem : y ∈ candidates (i + 1) e := List.mem_of_mem_head? hy
      have := (mem_candidates (i + 1) e y).mp hmem
      omega
  | case2 i e hle =>
      rw [candidates]
      simp only [if_neg hle]
      exact List.chain'_nil

/-- Every integer of the closed range occurs exactly once in the
candidate list; integers outside it do not occur. -/
theorem count_candidates (i e : Int) (n : Int) :
    (candidates i e).count n = if i ≤ n ∧ n ≤ e then 1 else 0 := by
  induction i, e using candidates.induct with
  | case1 i e hle ih =>
      rw [candidates]
      simp only [if_pos hle, List.count_cons, ih, beq_iff_eq]
      split_ifs <;> omega
  | case2 i e hle =>
      rw [candidates]
      simp only [if_neg hle, List.count_nil]
      split_ifs <;> omega

/-- Counting passes over the candidate list is the cardinality of the
filtered range. -/
theorem countP_candidates_eq_card (i e : Int) (p : Int → Bool) :
    (candidates i e).countP p = ((Finset.Icc i e).filter (fun n => p n = true)).card := by
  induction i, e using candidates.induct with
  | case1 i e hle ih =>
      rw [candidates]
      simp only [if_pos hle, List.countP_cons, ih]
      have hins : Finset.Icc i e = insert i (Finset.Icc (i + 1) e) := by
        ext x
        simp only [Finset.mem_Icc, Finset.mem_insert]
        omega
      rw [hins, Finset.filter_insert]
      by_cases hp : p i = true
      · rw [if_pos hp, if_pos hp, Finset.card_insert_of_not_mem]
        simp only [Finset.mem_filter, Finset.mem_Icc]
        omega
      · rw [if_neg hp, if_neg hp]
        omega
  | case2 i e hle =>
      rw [candidates]
      have : Finset.Icc i e = ∅ := by
        apply Finset.Icc_eq_empty
        omega
      simp [if_neg hle, this]

/-- C4: the final reported count is the number of integers in
`[90000000000, 90000100000]` that the primality test affirms; the
candidates are visited in strictly increasing order and every integer
of the closed range — both endpoints included — is visited exactly
once. -/
theorem prime_range_count_correct :
    primeRangeCount =
        ((Finset.Icc start end_).filter (fun n => is_prime n = true)).card ∧
      primeRangeCount = (candidates start end_).countP (fun n => is_prime n) ∧
      List.Chain' (· < ·) (candidates start end_) ∧
      (∀ n : Int, (candidates start end_).count n =
        if start ≤ n ∧ n ≤ end_ then 1 else 0) := by
  refine ⟨?_, ?_, candidates_chain start end_, fun n => count_candidates start end_ n⟩
  · rw [primeRangeCount, countLoop_eq_countP, countP_candidates_eq_card]
    omega
  · rw [primeRangeCount, countLoop_eq_countP]
    omega

/-! ## Determinism, output, and allocation behaviour -/

/-- C7: PrimeRangeCounter is deterministic — the count it reports does
not depend on the only external quantity it reads (the clock); any two
runs produce the identical count. -/
theorem prime_count_deterministic (clock1 clock2 : Nat → Int) :
    (main2Run clock1).1 = (main2Run clock2).1 := rfl

/-- C8: on a successful run each program performs exactly one `printf`,
with the exact format string of the source and, for the prime counter,
the computed count as the `%d` argument; the `%f` argument is the
elapsed-seconds value `(end − start) / CLOCKS_PER_SEC`. -/
theorem output_format_exact (r : Nat → Nat) (c1 c2 : Nat → Int) :
    (main1Run r c1).2 =
        [⟨"Elapsed time: %.4f\n",
          [PArg.pfloat (((c1 1 - c1 0 : Int) : ℚ) / ((CLOCKS_PER_SEC : Int) : ℚ))]⟩] ∧
      (main2Run c2).2 =
        [⟨"Found %d primes in %.3f seconds\n",
          [PArg.pint (primeRangeCount : Int),
            PArg.pfloat (((c2 1 - c2 0 : Int) : ℚ) / ((CLOCKS_PER_SEC : Int) : ℚ))]⟩] :=
  ⟨rfl, rfl⟩

/-- C3 (violated by the code): `main` of `src/task.c` checks none of
its 1503 `malloc` results; when the very first allocation (of `A`)
fails, the fill loop's first store `A[0] = malloc(N * sizeof(int))`
dereferences the null pointer `A` instead of terminating beforehand. -/
theorem alloc_failure_null_deref :
    fillPhase (fun _ => false) = Except.error Fault.nullDeref := rfl

/-! ## The triple loop of `src/task.c` -/

/-- Reading back the entry just written. -/
theorem upd_same (M : Mat) (i j : Fin 500) (v : Int) : upd M i j v i j = v := by
  simp [upd]

/-- Overwriting the same entry keeps only the second write. -/
theorem upd_upd (M : Mat) (i j : Fin 500) (v w : Int) :
    upd (upd M i j v) i j w = upd M i j w := by
  funext i' j'
  simp only [upd]
  split_ifs <;> rfl

/-- Reading any other entry sees the old value. -/
theorem upd_ne (M : Mat) (i j : Fin 500) (v : Int) (i' j' : Fin 500)
    (h : ¬(i' = i ∧ j' = j)) : upd M i j v i' j' = M i' j' := by
  simp only [upd, if_neg h]

/-- Closed form of the `k` loop over an arbitrary index list: only
`C[i][j]` changes, by accumulating the products in list order. -/
theorem foldl_stepK_closed (i j : Fin 500) (l : List (Fin 500)) (s : MatState) :
    l.foldl (stepK i j) s =
      { s with C := upd s.C i j (s.C i j + (l.map (fun k => s.A i k * s.B k j)).sum) } := by
  induction l generalizing s with
  | nil =>
      obtain ⟨a, b, c⟩ := s
      simp only [List.foldl_nil, List.map_nil, List.sum_nil, add_zero, MatState.mk.injEq,
        true_and]
      funext i' j'
      simp only [upd]
      split_ifs with h
      · obtain ⟨rfl, rfl⟩ := h
        rfl
      · rfl
  | cons k t ih =>
      rw [List.foldl_cons, ih]
      obtain ⟨a, b, c⟩ := s
      simp only [stepK, List.map_cons, List.sum_cons, MatState.mk.injEq, true_and]
      rw [upd_same, upd_upd]
      ring_nf

/-- Closed form of the `k` loop of `src/task.c` lines 29–30. -/
theorem loopK_eq (s : MatState) (i j : Fin 500) :
    loopK s i j = { s with C := upd s.C i j (s.C i j + ∑ k, s.A i k * s.B k j) } := by
  rw [loopK, foldl_stepK_closed, Fin.sum_univ_def]

/-- Closed form of the `j` loop over an arbitrary duplicate-free column
list: row `i` of `C` gains the dot products at its visited columns. -/
theorem foldl_loopK_closed (i : Fin 500) (l : List (Fin 500)) (hl : l.Nodup) (s : MatState) :
    l.foldl (fun t j => loopK t i j) s =
      { s with C := fun i' j' =>
          if i' = i ∧ j' ∈ l then s.C i' j' + ∑ k, s.A i' k * s.B k j' else s.C i' j' } := by
  induction l generalizing s with
  | nil =>
      obtain ⟨a, b, c⟩ := s
      simp
  | cons j t ih =>
      obtain ⟨hj, ht⟩ := List.nodup_cons.mp hl
      rw [List.foldl_cons, loopK_eq, ih ht]
      obtain ⟨a, b, c⟩ := s
      simp only [MatState.mk.injEq, true_and]
      funext i' j'
      by_cases hi : i' = i
      · subst hi
        by_cases hjt : j' ∈ t
        · have hne : j' ≠ j := fun h => hj (h ▸ hjt)
          rw [if_pos ⟨rfl, hjt⟩, if_pos ⟨rfl, List.mem_cons_of_mem j hjt⟩]
          rw [upd_ne _ _ _ _ _ _ (fun h => hne h.2)]
        · rw [if_neg (fun h => hjt h.2)]
          by_cases hjj : j' = j
          · subst hjj
            rw [if_pos ⟨rfl, List.mem_cons_self j' t⟩, upd_same]
          · rw [if_neg (fun h => (List.mem_cons.mp h.2).elim hjj hjt)]
            rw [upd_ne _ _ _ _ _ _ (fun h => hjj h.2)]
      · rw [if_neg (fun h => hi h.1), if_neg (fun h => hi h.1)]
        rw [upd_ne _ _ _ _ _ _ (fun h => hi h.1)]

/-- Closed form of the `j` loop of `src/task.c` lines 28–30: row `i`
of `C` gains the full dot products, other rows are untouched. -/
theorem loopJ_eq (s : MatState) (i : Fin 500) :
    loopJ s i =
      { s with C := fun i' j' =>
          if i' = i then s.C i' j' + ∑ k, s.A i' k * s.B k j' else s.C i' j' } := by
  rw [loopJ, foldl_loopK_closed i _ (List.nodup_finRange 500)]
  obtain ⟨a, b, c⟩ := s
  simp only [MatState.mk.injEq, true_and]
  funext i' j'
  simp [List.mem_finRange]

/-- Closed form of the `i` loop over an arbitrary duplicate-free row
list. -/
theorem foldl_loopJ_closed (l : List (Fin 500)) (hl : l.Nodup) (s : MatState) :
    l.foldl loopJ s =
      { s with C := fun i j =>
          if i ∈ l then s.C i j + ∑ k, s.A i k * s.B k j else s.C i j } := by
  induction l generalizing s with
  | nil =>
      obtain ⟨a, b, c⟩ := s
      simp
  | cons i t ih =>
      obtain ⟨hi, ht⟩ := List.nodup_cons.mp hl
      rw [List.foldl_cons, loopJ_eq, ih ht]
      obtain ⟨a, b, c⟩ := s
      simp only [MatState.mk.injEq, true_and]
      funext i' j'
      by_cases hit : i' ∈ t
      · have hne : i' ≠ i := fun h => hi (h ▸ hit)
        rw [if_pos hit, if_pos (List.mem_cons_of_mem i hit), if_neg hne]
      · rw [if_neg hit]
        by_cases hii : i' = i
        · subst hii
          rw [if_pos (List.mem_cons_self i' t), if_pos rfl]
        · rw [if_neg (fun h => (List.mem_cons.mp h).elim hii hit), if_neg hii]

/-- Closed form of the timed triple loop of `src/task.c` lines 27–30:
every entry of `C` gains the corresponding dot product; `A` and `B`
are untouched. -/
theorem matMul_eq (s : MatState) :
    matMul s = { s with C := fun i j => s.C i j + ∑ k, s.A i k * s.B k j } := by
  rw [matMul, foldl_loopJ_closed _ (List.nodup_finRange 500)]
  obtain ⟨a, b, c⟩ := s
  simp only [MatState.mk.injEq, true_and]
  funext i j
  simp [List.mem_finRange]

/-- C1: after the timed triple loop, the output matrix holds the
standard dense matrix product of the two filled input matrices. -/
theorem matrix_product_correct (r : Nat → Nat) (i j : Fin 500) :
    (matMul (initState r)).C i j =
      ∑ k, (initState r).A i k * (initState r).B k j := by
  rw [matMul_eq]
  show (fun i j => (initState r).C i j + ∑ k, (initState r).A i k * (initState r).B k j) i j =
    ∑ k, (initState r).A i k * (initState r).B k j
  simp [initState]

/-- C9: the timed triple loop writes only to `C`: the entries of `A`
and `B` after it are those from before it. -/
theorem matmul_frame (s : MatState) :
    (matMul s).A = s.A ∧ (matMul s).B = s.B := by
  rw [matMul_eq]
  exact ⟨rfl, rfl⟩

/-- C6: every filled input entry lies in `[0, 9]`, hence every output
entry lies in `[0, 40500]`, within 32-bit `int` range. -/
theorem matrix_entries_bounded (r : Nat → Nat) (i j : Fin 500) :
    (0 ≤ (initState r).A i j ∧ (initState r).A i j ≤ 9) ∧
      (0 ≤ (initState r).B i j ∧ (initState r).B i j ≤ 9) ∧
      (0 ≤ (matMul (initState r)).C i j ∧ (matMul (initState r)).C i j ≤ 40500) ∧
      (40500 : Int) < 2 ^ 31 := by
  have hA : ∀ i' j' : Fin 500, 0 ≤ (initState r).A i' j' ∧ (initState r).A i' j' ≤ 9 := by
    intro i' j'
    show (0 : Int) ≤ ((r (2 * (500 * i'.val + j'.val)) % 10 : Nat) : Int) ∧
      ((r (2 * (500 * i'.val + j'.val)) % 10 : Nat) : Int) ≤ 9
    constructor
    · exact Int.natCast_nonneg _
    · have : r (2 * (500 * i'.val + j'.val)) % 10 ≤ 9 := by omega
      exact_mod_cast this
  have hB : ∀ i' j' : Fin 500, 0 ≤ (initState r).B i' j' ∧ (initState r).B i' j' ≤ 9 := by
    intro i' j'
    show (0 : Int) ≤ ((r (2 * (500 * i'.val + j'.val) + 1) % 10 : Nat) : Int) ∧
      ((r (2 * (500 * i'.val + j'.val) + 1) % 10 : Nat) : Int) ≤ 9
    constructor
    · exact Int.natCast_nonneg _
    · have : r (2 * (500 * i'.val + j'.val) + 1) % 10 ≤ 9 := by omega
      exact_mod_cast this
  refine ⟨hA i j, hB i j, ?_, by norm_num⟩
  rw [matMul_eq]
  show 0 ≤ (fun i j => (initState r).C i j + ∑ k, (initState r).A i k * (initState r).B k j) i j ∧
    (fun i j => (initState r).C i j + ∑ k, (initState r).A i k * (initState r).B k j) i j ≤ 40500
  simp only
  have hC0 : (initState r).C i j = 0 := rfl
  rw [hC0, zero_add]
  constructor
  · apply Finset.sum_nonneg
    intro k _
    exact mul_nonneg (hA i k).1 (hB k j).1
  · calc (∑ k, (initState r).A i k * (initState r).B k j)
        ≤ ∑ _k : Fin 500, (81 : Int) := by
          apply Finset.sum_le_sum
          intro k _
          have h1 := hA i k
          have h2 := hB k j
          nlinarith
      _ = 40500 := by
          rw [Finset.sum_const, Finset.card_univ, Fintype.card_fin]
          norm_num

/-! ## Bounds on the trial-division loop -/

/-- Every index the trial-division loop visits is at least the start
index. -/
theorem mem_trialIters_ge (n : Int) (i : Nat) : ∀ j ∈ trialIters n i, i ≤ j := by
  induction i using trialIters.induct n with
  | case1 x hle hmod =>
      rw [trialIters]
      simp only [dif_pos hle, if_pos hmod, List.mem_singleton]
      rintro j rfl
      exact le_rfl
  | case2 x hle hmod ih =>
      rw [trialIters]
      simp only [dif_pos hle, if_neg hmod, List.mem_cons]
      rintro j (rfl | hj)
      · exact le_rfl
      · exact Nat.le_of_succ_le (ih j hj)
  | case3 x hgt =>
      rw [trialIters]
      simp only [dif_neg hgt, List.mem_singleton]
      rintro j rfl
      exact le_rfl

/-- The trial-division index strictly increases. -/
theorem trialIters_chain (n : Int) (i : Nat) :
    List.Chain' (· < ·) (trialIters n i) := by
  induction i using trialIters.induct n with
  | case1 x hle hmod =>
      rw [trialIters]
      simp only [dif_pos hle, if_pos hmod]
      exact List.chain'_singleton x
  | case2 x hle hmod ih =>
      rw [trialIters]
      simp only [dif_pos hle, if_neg hmod]
      rw [List.chain'_cons']
      refine ⟨?_, ih⟩
      intro y hy
      have := mem_trialIters_ge n (x + 1) y (List.mem_of_mem_head? hy)
      omega
  | case3 x hgt =>
      rw [trialIters]
      simp only [dif_neg hgt]
      exact List.chain'_singleton x

/-- Every visited index other than the start index has a predecessor
that passed the loop condition `i * i ≤ n`. -/
theorem mem_trialIters_bound (n : Int) (i : Nat) :
    ∀ j ∈ trialIters n i, j = i ∨ ((j : Int) - 1) * ((j : Int) - 1) ≤ n := by
  induction i using trialIters.induct n with
  | case1 x hle hmod =>
      rw [trialIters]
      simp only [dif_pos hle, if_pos hmod, List.mem_singleton]
      rintro j rfl
      exact Or.inl rfl
  | case2 x hle hmod ih =>
      rw [trialIters]
      simp only [dif_pos hle, if_neg hmod, List.mem_cons]
      rintro j (rfl | hj)
      · exact Or.inl rfl
      · rcases ih j hj with rfl | hb
        · right
          push_cast
          simpa using hle
        · exact Or.inr hb
  | case3 x hgt =>
      rw [trialIters]
      simp only [dif_neg hgt, List.mem_singleton]
      rintro j rfl
      exact Or.inl rfl

/-- For candidates up to `90000100000` the loop performs at most
`300002 - i` condition checks when started at `i ≤ 300001`. -/
theorem trialIters_length (n : Int) (hn : n ≤ 90000100000) :
    ∀ i : Nat, i ≤ 300001 → (trialIters n i).length ≤ 300002 - i := by
  intro i
  induction i using trialIters.induct n with
  | case1 x hle hmod =>
      intro hx
      rw [trialIters]
      simp only [dif_pos hle, if_pos hmod, List.length_singleton]
      omega
  | case2 x hle hmod ih =>
      intro hx
      rw [trialIters]
      simp only [dif_pos hle, if_neg hmod, List.length_cons]
      have hxs : x ≤ 300000 := by
        by_contra hgt
        push_neg at hgt
        have h1 : (300001 : Int) ≤ (x : Int) := by exact_mod_cast hgt
        have h2 : (300001 : Int) * 300001 ≤ (x : Int) * x := by nlinarith
        nlinarith
      have := ih (by omega)
      omega
  | case3 x hgt =>
      intro hx
      rw [trialIters]
      simp only [dif_neg hgt, List.length_singleton]
      omega

/-- C10: for every candidate the benchmark can pass to `is_prime`
(`n ≤ 90000100000`), the trial-division index strictly increases, every
visited index is at most `300001` (approximately `√n`), the product
`i * i` evaluated in the loop condition stays below `2^63` (no signed
64-bit overflow), and the loop performs at most `300000` iterations, so
`is_prime n` terminates. -/
theorem trial_division_bounded (n : Int) (hn : n ≤ 90000100000) :
    (∀ j ∈ trialIters n 2, j ≤ 300001 ∧ (j : Int) * j < 2 ^ 63) ∧
      List.Chain' (· < ·) (trialIters n 2) ∧
      (trialIters n 2).length ≤ 300000 := by
  refine ⟨?_, trialIters_chain n 2, ?_⟩
  · intro j hj
    have hb := mem_trialIters_bound n 2 j hj
    have hj2 : 2 ≤ j := mem_trialIters_ge n 2 j hj
    have hjle : j ≤ 300001 := by
      rcases hb with rfl | hb
      · omega
      · by_contra hgt
        push_neg at hgt
        have h1 : (300002 : Int) ≤ (j : Int) := by exact_mod_cast hgt
        have h2 : (300001 : Int) * 300001 ≤ ((j : Int) - 1) * ((j : Int) - 1) := by nlinarith
        nlinarith
    refine ⟨hjle, ?_⟩
    have h3 : (j : Int) ≤ 300001 := by exact_mod_cast hjle
    have h4 : (0 : Int) ≤ (j : Int) := Int.natCast_nonneg j
    nlinarith
  · have := trialIters_length n hn 2 (by omega)
    omega

/-- Witness for `trial_division_bounded` at `n = 97`. -/
theorem trial_division_bounded_witness :
    (97 : Int) ≤ 90000100000 ∧
      ((∀ j ∈ trialIters 97 2, j ≤ 300001 ∧ (j : Int) * j < 2 ^ 63) ∧
        List.Chain' (· < ·) (trialIters 97 2) ∧
        (trialIters 97 2).length ≤ 300000) :=
  ⟨by norm_num, trial_division_bounded 97 (by norm_num)⟩
